import Mathlib

/-!
Verification of the sqlist library (src/sqlist/__init__.py) against its
natural-language specification.

The embedding models the `SQList` class: a list-like object storing rows
(`key` BLOB, `value` BLOB) in an SQLite table.  Rows are modelled as a list
in physical rowid order; the logical view (`ORDER BY key ASC`, served by
the index `keys_index`) is modelled as a stable sort of that list by the
SQLite ordering on the key column.  Values are modelled by a small universe
`PyVal` (None, int, str) with Python's partial comparison semantics: `<`
and `>` are defined within ints and within strs and raise `TypeError`
otherwise, which the model renders as `Option.none`.  The pickle codec
round-trips (spec section 6), so rows hold decoded values directly.

The connection state carries both the cursor's view (`rows`) and the last
durably committed view (`committed`): `self.sql.commit()` sets
`committed := rows` and `self.sql.rollback()` sets `rows := committed`.
-/

/-- Decoded Python values handled by the model: `None`, `int`, `str`. -/
inductive PyVal where
  | vNone : PyVal
  | vInt  : Int → PyVal
  | vStr  : String → PyVal
deriving DecidableEq

/-- Python's `a > b` (used by `sort.swap_required` for ascending order):
defined within ints and within strs, `TypeError` (modelled `Option.none`)
otherwise — in particular for `None` against anything. -/
def pyGt : PyVal → PyVal → Option Bool
  | .vInt a, .vInt b => some (decide (b < a))
  | .vStr a, .vStr b => some (decide (b < a))
  | _, _ => Option.none

/-- Python's `a < b` (used by `sort.swap_required` when `reverse=True`). -/
def pyLt : PyVal → PyVal → Option Bool
  | .vInt a, .vInt b => some (decide (a < b))
  | .vStr a, .vStr b => some (decide (a < b))
  | _, _ => Option.none

/-- A physical row of the `data` table: `_rowid_`, `key` column, `value`
column (value stored pickled; the model stores the decoded value since the
codec round-trips). -/
structure Row where
  rid : Nat
  key : PyVal
  value : PyVal
deriving DecidableEq

/-- SQLite's ordering of storage classes used by `ORDER BY key ASC`:
NULL sorts before numeric values, which sort before text. -/
def keyRank : PyVal → Nat
  | .vNone => 0
  | .vInt _ => 1
  | .vStr _ => 2

/-- SQLite's strict comparison on the `key` column: NULL < all ints < all
strs, ints by numeric order, strs by lexicographic order. -/
def sqliteKeyLt (a b : PyVal) : Bool :=
  match a, b with
  | .vInt x, .vInt y => decide (x < y)
  | .vStr x, .vStr y => decide (x < y)
  | _, _ => decide (keyRank a < keyRank b)

/-- Insert a row into a key-ordered list, after all rows whose key is
strictly smaller and after earlier rows with an equal key (the index scan
returns ties in rowid order, so the sort is stable). -/
def insertByKey (r : Row) : List Row → List Row
  | [] => [r]
  | x :: xs => if sqliteKeyLt x.key r.key then x :: insertByKey r xs else r :: x :: xs

/-- The logical row order observed by `SELECT ... ORDER BY key ASC`:
a stable sort of the physical (rowid-ordered) rows by the key column. -/
def logicalOrder : List Row → List Row
  | [] => []
  | r :: rs => insertByKey r (logicalOrder rs)

/-- Errors the modelled code can raise.  The spec names `IndexOutOfRange`
for Python `IndexError` and `NotComparable` for the `TypeError` raised by
`sort`; Python `TypeError` also arises from calling `None` and from
unpacking `None`. -/
inductive PyErr where
  | typeError : PyErr
  | indexError : PyErr
  | valueError : PyErr
deriving DecidableEq

/-- Connection state of an `SQList`: the physical rows as the cursor sees
them (in rowid order), the rows as last committed to disk, and the `key`
attribute (`some f` models a callable, `Option.none` models Python `None`,
which `sort` assigns). -/
structure SQ where
  rows : List Row
  committed : List Row
  key : Option (PyVal → PyVal)

/-- `SELECT value FROM data ORDER BY key ASC`, decoded: the values in
logical order, as produced by `__iter__`, `__getitem__` and `__eq__`. -/
def logicalValues (s : SQ) : List PyVal :=
  (logicalOrder s.rows).map Row.value

/-- CPython's slice-bound adjustment (`PySlice_AdjustIndices`): negative
indices are shifted by the length then clamped at `lower`; non-negative
ones are clamped at `upper`. -/
def adjustIndex (i lower upper n : Int) : Int :=
  if i < 0 then
    if i + n < lower then lower else i + n
  else
    if i > upper then upper else i

/-- Python's `slice(start, stop, step).indices(n)`, as used on line 141
and line 143 of the source.  `step` is assumed nonzero (Python raises
`ValueError` on zero, modelled in `getSlice`). -/
def sliceIndices (start stop : Option Int) (step : Int) (n : Nat) : Int × Int × Int :=
  let lower : Int := if step < 0 then -1 else 0
  let upper : Int := if step < 0 then (n : Int) - 1 else (n : Int)
  let start' := match start with
    | Option.none => if step < 0 then upper else lower
    | some i => adjustIndex i lower upper (n : Int)
  let stop' := match stop with
    | Option.none => if step < 0 then lower else upper
    | some i => adjustIndex i lower upper (n : Int)
  (start', stop', step)

/-- `slice(index, index + 1).indices(len(self))`: the normalization the
source applies to a single integer index in `__getitem__`, `__setitem__`,
`__delitem__` and `pop`. -/
def intIndices (i : Int) (n : Nat) : Int × Int × Int :=
  sliceIndices (some i) (some (i + 1)) 1 n

/-- SQLite `LIMIT limit OFFSET offset` over an ordered result: a negative
limit means no limit, a negative offset is treated as 0. -/
def sqlLimitOffset (l : List PyVal) (limit offset : Int) : List PyVal :=
  let rest := l.drop offset.toNat
  if limit < 0 then rest else rest.take limit.toNat

/-- `__getitem__` with an integer index (source lines 139-161): normalize
via `slice(index, index+1).indices(len(self))`, run the range query, then
`fetchone()`; `None` means `IndexError`. -/
def getInt (s : SQ) (i : Int) : Except PyErr PyVal :=
  let n := s.rows.length
  let norm := intIndices i n
  let limit := norm.2.1 - norm.1
  match (sqlLimitOffset (logicalValues s) limit norm.1).head? with
  | some v => Except.ok v
  | Option.none => Except.error PyErr.indexError

/-- `__getitem__` with a slice (source lines 139-163): normalize the slice,
run `LIMIT (stop - offset) OFFSET offset`, and return every fetched value.
The `stride` component is computed but never used.  `step = 0` raises
`ValueError` inside `slice.indices`. -/
def getSlice (s : SQ) (start stop : Option Int) (step : Int) :
    Except PyErr (List PyVal) :=
  if step = 0 then Except.error PyErr.valueError
  else
    let n := s.rows.length
    let norm := sliceIndices start stop step n
    let limit := norm.2.1 - norm.1
    Except.ok (sqlLimitOffset (logicalValues s) limit norm.1)

/-- `__setitem__` (source lines 165-182): compute the offset, then
`UPDATE data SET key = self.key(value), value = ? WHERE _rowid_ =
(SELECT _rowid_ ... ORDER BY key ASC LIMIT 1 OFFSET offset)`.  A zero
rowcount (no row at that rank) raises `IndexError`; success commits.
When `self.key` is Python `None` (after a sort), evaluating
`self.key(value)` raises `TypeError` before the update. -/
def setItem (s : SQ) (i : Int) (v : PyVal) : Except PyErr SQ :=
  match s.key with
  | Option.none => Except.error PyErr.typeError
  | some kf =>
    let offset := (intIndices i s.rows.length).1
    match (logicalOrder s.rows).get? offset.toNat with
    | Option.none => Except.error PyErr.indexError
    | some t =>
      let rows' := s.rows.map fun r =>
        if r.rid = t.rid then { r with key := kf v, value := v } else r
      Except.ok { rows := rows', committed := rows', key := s.key }

/-- `append` (source lines 228-235): `INSERT INTO data (key, value) VALUES
(self.key(value), pickle.dumps(value))`, then commit.  The fresh rowid is
larger than every existing one, so the new row is last in rowid order.
When `self.key` is Python `None` (after a sort), `self.key(value)` raises
`TypeError` before the insert. -/
def appendItem (s : SQ) (v : PyVal) : Except PyErr SQ :=
  match s.key with
  | Option.none => Except.error PyErr.typeError
  | some kf =>
    let fresh := (s.rows.map Row.rid).foldr Nat.max 0 + 1
    let rows' := s.rows ++ [⟨fresh, kf v, v⟩]
    Except.ok { rows := rows', committed := rows', key := s.key }

/-- `pop` (source lines 237-256): compute the offset, `SELECT _rowid_,
value ... ORDER BY key ASC LIMIT 1 OFFSET offset`, then test
`result.rowcount`.  For a SELECT cursor `rowcount` is always `-1`, which
is truthy, so the code always takes the success branch and unpacks
`result.fetchone()`: when no row exists the unpack of `None` raises
`TypeError` (the `IndexError` branch is unreachable).  On success the row
is deleted by rowid and the transaction committed. -/
def popItem (s : SQ) (i : Int) : Except PyErr (PyVal × SQ) :=
  let offset := (intIndices i s.rows.length).1
  match (logicalOrder s.rows).get? offset.toNat with
  | Option.none => Except.error PyErr.typeError
  | some t =>
    let rows' := s.rows.filter fun r => decide (r.rid ≠ t.rid)
    Except.ok (t.value, { rows := rows', committed := rows', key := s.key })

/-- `__eq__` (source lines 217-226) against an `other` that supports
length and iteration.  The guard is `not hasattr(other, '__len__') and
len(self) != len(other)`: when `other` has `__len__` the conjunction is
False without comparing lengths, so the code proceeds to
`zip(self-values, other)`, which stops at the shorter sequence, and
returns True unless some pair differs. -/
def sqEq (s : SQ) (other : List PyVal) : Bool :=
  ((logicalValues s).zip other).all fun p => decide (p.1 = p.2)

/-- `sort.swap_required` (source lines 259-269): compare the two effective
keys with `<` when `reverse` else `>`; `Option.none` models the
`TypeError` path, which rolls back the transaction and re-raises. -/
def swapRequired (reverse : Bool) (a b : PyVal) : Option Bool :=
  if reverse then pyLt a b else pyGt a b

/-- One sweep structure of `sort`'s while-loop (source lines 281-300):
fetch the two rows at `LIMIT 2 OFFSET position` of the physical order,
stop when fewer than two remain, otherwise swap the two rows' value
payloads (rowids and keys stay in place) and retreat, or advance.  `fuel`
bounds the recursion; `sortFuel` below always suffices, and running out is
modelled as `Option.none` (never reached). -/
def sortLoop (kf : PyVal → PyVal) (reverse : Bool) :
    Nat → List Row → Nat → Option (Except Unit (List Row))
  | 0, _, _ => Option.none
  | fuel + 1, rows, pos =>
    match rows.drop pos with
    | a :: b :: rest =>
      match swapRequired reverse (kf a.value) (kf b.value) with
      | Option.none => some (Except.error ())
      | some true =>
        sortLoop kf reverse fuel
          (rows.take pos ++ ⟨a.rid, a.key, b.value⟩ :: ⟨b.rid, b.key, a.value⟩ :: rest)
          (pos - 1)
      | some false => sortLoop kf reverse fuel rows (pos + 1)
    | _ => some (Except.ok rows)

/-- Pair ordering used only to bound the loop: `oo reverse x y` holds when
a successful comparison would order `y` strictly before `x` is wrong —
i.e. the pair `(x, y)` counts as an inversion for the direction sorted. -/
def oo (reverse : Bool) (x y : PyVal) : Bool :=
  if reverse then sqliteKeyLt x y else sqliteKeyLt y x

/-- Number of out-of-order pairs of a list of effective keys. -/
def invCount (reverse : Bool) : List PyVal → Nat
  | [] => 0
  | x :: xs => xs.countP (fun y => oo reverse x y) + invCount reverse xs

/-- Fuel that always suffices for `sortLoop` (proved below). -/
def sortFuel (kf : PyVal → PyVal) (reverse : Bool) (rows : List Row) : Nat :=
  invCount reverse (rows.map fun r => kf r.value) * (rows.length + 1) + rows.length + 1

/-- `sort` (source lines 258-300).  The effective key is the explicit
`key` argument if given, else the identity.  If `self.key` is truthy (a
callable; always the case before the first sort) the code first runs
`UPDATE data SET key = NULL` and assigns `self.key = None`.  Then the
two-row bubble loop runs.  On a comparison `TypeError` the transaction is
rolled back and `TypeError` is re-raised; note that `self.key = None` is a
plain attribute assignment and is not rolled back.  On success the
function returns without ever calling `commit`. -/
def sortOp (s : SQ) (keyArg : Option (PyVal → PyVal)) (reverse : Bool) :
    Option (Except PyErr Unit × SQ) :=
  let kf := keyArg.getD id
  let s1 : SQ :=
    if s.key.isSome then
      { rows := s.rows.map fun r => { r with key := PyVal.vNone },
        committed := s.committed, key := Option.none }
    else s
  match sortLoop kf reverse (sortFuel kf reverse s1.rows) s1.rows 0 with
  | some (Except.ok rows') => some (Except.ok (), { s1 with rows := rows' })
  | some (Except.error _) => some (Except.error PyErr.typeError, { s1 with rows := s1.committed })
  | Option.none => Option.none

/-- How a generator frame can finish. -/
inductive GenEnd where
  | normal : GenEnd
  | stopIteration : GenEnd
  | runtimeError : GenEnd
deriving DecidableEq

/-- The literal body of `__iter__` (source lines 202-206): yield each
decoded value of `SELECT value FROM data ORDER BY key ASC`, then execute
`raise StopIteration`. -/
def iterGenBody (s : SQ) : List PyVal × GenEnd :=
  (logicalValues s, GenEnd.stopIteration)

/-- PEP 479 (Python 3.7+): a `StopIteration` escaping a generator body is
replaced by `RuntimeError`. -/
def pep479 : GenEnd → GenEnd
  | GenEnd.stopIteration => GenEnd.runtimeError
  | e => e

/-- Iterating an `SQList` to exhaustion: the values yielded and how the
iteration ends for the caller. -/
def iterate (s : SQ) : List PyVal × GenEnd :=
  ((iterGenBody s).1, pep479 (iterGenBody s).2)

/-! ## Basic facts about the logical order -/

theorem insertByKey_perm (r : Row) (l : List Row) :
    (insertByKey r l).Perm (r :: l) := by
  induction l with
  | nil => simp [insertByKey]
  | cons x xs ih =>
    simp only [insertByKey]
    split
    · exact (ih.cons x).trans (List.Perm.swap r x xs)
    · exact List.Perm.refl _

theorem logicalOrder_perm (l : List Row) : (logicalOrder l).Perm l := by
  induction l with
  | nil => simp [logicalOrder]
  | cons r rs ih =>
    exact (insertByKey_perm r (logicalOrder rs)).trans (ih.cons r)

theorem logicalOrder_length (l : List Row) : (logicalOrder l).length = l.length :=
  (logicalOrder_perm l).length_eq

/-- With every key NULL, `ORDER BY key ASC` leaves the physical order
unchanged (the stable sort has nothing to reorder). -/
theorem logicalOrder_eq_self (l : List Row) (h : ∀ r ∈ l, r.key = PyVal.vNone) :
    logicalOrder l = l := by
  induction l with
  | nil => rfl
  | cons r rs ih =>
    have hr : r.key = PyVal.vNone := h r (List.mem_cons_self r rs)
    have hrs : logicalOrder rs = rs := ih fun x hx => h x (List.mem_cons_of_mem r hx)
    rw [logicalOrder, hrs]
    cases rs with
    | nil => rfl
    | cons y ys =>
      have hy : y.key = PyVal.vNone := h y (by simp)
      simp [insertByKey, hy, hr, sqliteKeyLt, keyRank]

/-! ## Concrete example sequences -/

/-- A sequence created without a key function holding the given ints:
all order keys NULL, `self.key` the callable `lambda x: None`, all
mutations committed. -/
def mkPlainSeq (vs : List Int) : SQ :=
  let rows := vs.enum.map fun p => ⟨p.1 + 1, PyVal.vNone, PyVal.vInt p.2⟩
  ⟨rows, rows, some fun _ => PyVal.vNone⟩

/-- A sequence created with `key=lambda x: x` holding the given ints:
each row's order key equals its value. -/
def mkIdKeySeq (vs : List Int) : SQ :=
  let rows := vs.enum.map fun p => ⟨p.1 + 1, PyVal.vInt p.2, PyVal.vInt p.2⟩
  ⟨rows, rows, some id⟩

/-! ## C2, C3, C4, C8, C10 and the C5/C6/C7 counterexamples -/

/-- C2: the claim says that after a successful `sort()` on a sequence
created with a key function, every order key is absent, the key function
is disabled, and a later `append(v)` succeeds without computing an order
key.  The first two parts hold, but `sort` disables the key function by
assigning `self.key = None`, and `append` then evaluates
`self.key(value)`, i.e. `None(value)`, raising `TypeError`: the later
append fails instead of succeeding. -/
theorem c2_append_after_sort_raises :
    ∃ s', sortOp (mkIdKeySeq [1]) Option.none false = some (Except.ok (), s') ∧
      s'.key = Option.none ∧ (∀ r ∈ s'.rows, r.key = PyVal.vNone) ∧
      appendItem s' (PyVal.vInt 5) = Except.error PyErr.typeError :=
  ⟨_, rfl, rfl, by decide, rfl⟩

/-- C3: the claim says out-of-range `pop(i)` fails with `IndexOutOfRange`.
In the code, `result.rowcount` on a SELECT cursor is always `-1` (truthy),
so the `IndexError` branch is unreachable: `pop()` on an empty sequence
unpacks `fetchone()`'s `None` and raises `TypeError`; and for `i < -n`
the offset is clamped to `0`, so `pop(-3)` on a 2-element sequence
*succeeds*, removing and returning the first element. -/
theorem c3_pop_out_of_range_behavior :
    popItem (mkPlainSeq []) (-1) = Except.error PyErr.typeError ∧
      ∃ s', popItem (mkPlainSeq [1, 2]) (-3) = Except.ok (PyVal.vInt 1, s') ∧
        s'.rows.map Row.value = [PyVal.vInt 2] :=
  ⟨rfl, _, rfl, rfl⟩

/-- C4: the claim says `__eq__` returns `False` whenever the lengths
differ, in particular when `self` is strictly longer and `other` matches
its prefix.  The code's guard is `not hasattr(other, '__len__') and
len(self) != len(other)`: for any `other` with `__len__` it is `False`
without comparing lengths, and `zip` stops at the exhausted `other`, so
the comparison of `[1, 2]` with `[1]` returns `True`. -/
theorem c4_eq_true_on_proper_prefix :
    (mkPlainSeq [1, 2]).rows.length ≠ [PyVal.vInt 1].length ∧
      sqEq (mkPlainSeq [1, 2]) [PyVal.vInt 1] = true := by
  constructor
  · decide
  · rfl

/-- C8: the claim says every successful mutating operation, `sort`
included, has durably committed before returning.  `sort` never calls
`commit`: after a successful `sort()` of the committed sequence `[2, 1]`
the cursor sees `[1, 2]` but the committed store still holds `[2, 1]`,
so a reader starting after the call (a fresh connection reading the
committed rows) does not observe the mutation. -/
theorem c8_sort_returns_uncommitted :
    ∃ s', sortOp (mkPlainSeq [2, 1]) Option.none false = some (Except.ok (), s') ∧
      s'.rows.map Row.value = [PyVal.vInt 1, PyVal.vInt 2] ∧
      s'.committed.map Row.value = [PyVal.vInt 2, PyVal.vInt 1] ∧
      logicalValues ⟨s'.committed, s'.committed, s'.key⟩ = [PyVal.vInt 2, PyVal.vInt 1] :=
  ⟨_, rfl, rfl, rfl, rfl⟩

/-- C10: iterating an `SQList` to exhaustion yields exactly the stored
elements (every row's decoded value, in logical order), after which the
generator's explicit `raise StopIteration` is converted by PEP 479 into a
`RuntimeError` that propagates to the caller instead of a normal end of
iteration. -/
theorem c10_iter_ends_with_runtime_error (s : SQ) :
    (iterate s).1 = logicalValues s ∧
      ((iterate s).1).Perm (s.rows.map Row.value) ∧
      (iterate s).2 = GenEnd.runtimeError :=
  ⟨rfl, (logicalOrder_perm s.rows).map Row.value, rfl⟩

/-- C5 counterexample: on the sequence `[1, 2, 3]` created with
`key=lambda x: x`, `set(0, 5)` succeeds and rewrites the rank-0 row's key
to `5`, after which `get(0)` returns `2` (the updated row re-ranked to the
end), not a value decoding equal to `5`.  This refutes the claim for
sequences created with a key function. -/
theorem c5_counterexample :
    ∃ s', setItem (mkIdKeySeq [1, 2, 3]) 0 (PyVal.vInt 5) = Except.ok s' ∧
      getInt s' 0 = Except.ok (PyVal.vInt 2) ∧ PyVal.vInt 2 ≠ PyVal.vInt 5 :=
  ⟨_, rfl, rfl, by decide⟩

/-- C6 counterexample: `-1` lies in the valid range `[-n, n-1]` for a
1-element sequence, yet `get(-1)` fails: `slice(-1, 0).indices(1)` yields
`(offset, stop) = (0, 0)`, so the query runs with `LIMIT 0`, `fetchone()`
returns `None`, and `IndexError` is raised for a valid index. -/
theorem c6_counterexample :
    (mkPlainSeq [10]).rows.length = 1 ∧
      getInt (mkPlainSeq [10]) (-1) = Except.error PyErr.indexError :=
  ⟨rfl, rfl⟩

/-- C7 counterexample: for the slice `[::-1]` (normalized form
`(offset, stop, step) = (2, -1, -1)` on length 3) the result is `[30]` —
the rows from offset 2 onward, because the negative `LIMIT` means
unlimited — which is neither the same slice with step 1 (the whole list)
nor a block of `stop - offset` elements.  The claim fails for negative
steps. -/
theorem c7_counterexample :
    getSlice (mkPlainSeq [10, 20, 30]) Option.none Option.none (-1) =
        Except.ok [PyVal.vInt 30] ∧
      getSlice (mkPlainSeq [10, 20, 30]) Option.none Option.none 1 =
        Except.ok [PyVal.vInt 10, PyVal.vInt 20, PyVal.vInt 30] ∧
      ([PyVal.vInt 30] : List PyVal) ≠ [PyVal.vInt 10, PyVal.vInt 20, PyVal.vInt 30] :=
  ⟨rfl, rfl, by decide⟩

/-! ## Index arithmetic: the C6 and C5 general theorems -/

theorem logicalValues_length (s : SQ) :
    (logicalValues s).length = s.rows.length := by
  simp [logicalValues, logicalOrder_length]

theorem head?_drop {α : Type} (l : List α) (n : Nat) : (l.drop n).head? = l.get? n := by
  induction l generalizing n with
  | nil => simp
  | cons x xs ih =>
    cases n with
    | zero => rfl
    | succ m => exact ih m

theorem head?_take {α : Type} (l : List α) (n : Nat) (h : n ≠ 0) :
    (l.take n).head? = l.head? := by
  cases l with
  | nil => simp
  | cons x xs =>
    cases n with
    | zero => exact absurd rfl h
    | succ m => rfl

theorem getInt_unfold (s : SQ) (i : Int) :
    getInt s i =
      match (sqlLimitOffset (logicalValues s)
          (adjustIndex (i + 1) 0 (s.rows.length : Int) (s.rows.length : Int) -
            adjustIndex i 0 (s.rows.length : Int) (s.rows.length : Int))
          (adjustIndex i 0 (s.rows.length : Int) (s.rows.length : Int))).head? with
      | some v => Except.ok v
      | Option.none => Except.error PyErr.indexError := by
  simp [getInt, intIndices, sliceIndices, show ¬((1 : Int) < 0) by norm_num]

theorem emod_of_neg_range {i n : Int} (h1 : -n ≤ i) (h2 : i < 0) (_hn : 0 < n) :
    i % n = i + n := by
  have ha : (i + n * 1) % n = i % n := Int.add_mul_emod_self_left i n 1
  have hb : i + n * 1 = i + n := by ring
  rw [hb] at ha
  rw [← ha]
  exact Int.emod_eq_of_lt (by omega) (by omega)

theorem getInt_out_range (s : SQ) (i : Int)
    (h : i < -(s.rows.length : Int) ∨ (s.rows.length : Int) - 1 < i) :
    getInt s i = Except.error PyErr.indexError := by
  have e1 : adjustIndex i 0 (s.rows.length : Int) (s.rows.length : Int) =
      if i < 0 then 0 else (s.rows.length : Int) := by
    unfold adjustIndex; split_ifs <;> omega
  have e2 : adjustIndex (i + 1) 0 (s.rows.length : Int) (s.rows.length : Int) =
      if i < 0 then 0 else (s.rows.length : Int) := by
    unfold adjustIndex; split_ifs <;> omega
  rw [getInt_unfold, e1, e2]
  have hz : (if i < 0 then (0 : Int) else (s.rows.length : Int)) -
      (if i < 0 then (0 : Int) else (s.rows.length : Int)) = 0 := by omega
  rw [hz]
  simp [sqlLimitOffset]

theorem getInt_in_range (s : SQ) (i : Int)
    (h1 : -(s.rows.length : Int) ≤ i) (h2 : i ≤ (s.rows.length : Int) - 1)
    (h3 : ¬(s.rows.length = 1 ∧ i = -1)) :
    ∃ v, (logicalValues s).get? (i % (s.rows.length : Int)).toNat = some v ∧
      getInt s i = Except.ok v := by
  have hlen := logicalValues_length s
  have hn : 1 ≤ s.rows.length := by omega
  by_cases hi0 : 0 ≤ i
  · have e1 : adjustIndex i 0 (s.rows.length : Int) (s.rows.length : Int) = i := by
      unfold adjustIndex; split_ifs <;> omega
    have e2 : adjustIndex (i + 1) 0 (s.rows.length : Int) (s.rows.length : Int) = i + 1 := by
      unfold adjustIndex; split_ifs <;> omega
    have hlt : i.toNat < (logicalValues s).length := by rw [hlen]; omega
    obtain ⟨v, hv⟩ : ∃ v, (logicalValues s).get? i.toNat = some v :=
      ⟨_, List.get?_eq_get hlt⟩
    refine ⟨v, ?_, ?_⟩
    · have hmod : i % (s.rows.length : Int) = i :=
        Int.emod_eq_of_lt hi0 (by omega)
      rw [hmod]; exact hv
    · rw [getInt_unfold, e1, e2]
      have hlim : i + 1 - i = 1 := by omega
      rw [hlim]
      have : sqlLimitOffset (logicalValues s) 1 i =
          ((logicalValues s).drop i.toNat).take 1 := by
        simp [sqlLimitOffset]
      rw [this, head?_take _ _ (by omega), head?_drop, hv]
  · by_cases hi1 : i = -1
    · subst hi1
      have hn2 : 2 ≤ s.rows.length := by omega
      have e1 : adjustIndex (-1) 0 (s.rows.length : Int) (s.rows.length : Int) =
          (s.rows.length : Int) - 1 := by
        unfold adjustIndex; split_ifs <;> omega
      have e2 : adjustIndex (-1 + 1) 0 (s.rows.length : Int) (s.rows.length : Int) = 0 := by
        unfold adjustIndex; split_ifs <;> omega
      have hlt : ((s.rows.length : Int) - 1).toNat < (logicalValues s).length := by
        rw [hlen]; omega
      obtain ⟨v, hv⟩ : ∃ v, (logicalValues s).get? ((s.rows.length : Int) - 1).toNat = some v :=
        ⟨_, List.get?_eq_get hlt⟩
      refine ⟨v, ?_, ?_⟩
      · have hmod : ((-1) % (s.rows.length : Int)).toNat =
            ((s.rows.length : Int) - 1).toNat := by
          rw [emod_of_neg_range (by omega) (by omega) (by omega)]
          omega
        rw [hmod]; exact hv
      · rw [getInt_unfold, e1, e2]
        have hneg : (0 : Int) - ((s.rows.length : Int) - 1) < 0 := by omega
        have : sqlLimitOffset (logicalValues s) (0 - ((s.rows.length : Int) - 1))
            ((s.rows.length : Int) - 1) =
            (logicalValues s).drop ((s.rows.length : Int) - 1).toNat := by
          simp only [sqlLimitOffset]
          rw [if_pos hneg]
        rw [this, head?_drop, hv]
    · have hile : i ≤ -2 := by omega
      have e1 : adjustIndex i 0 (s.rows.length : Int) (s.rows.length : Int) =
          i + (s.rows.length : Int) := by
        unfold adjustIndex; split_ifs <;> omega
      have e2 : adjustIndex (i + 1) 0 (s.rows.length : Int) (s.rows.length : Int) =
          i + 1 + (s.rows.length : Int) := by
        unfold adjustIndex; split_ifs <;> omega
      have hlt : (i + (s.rows.length : Int)).toNat < (logicalValues s).length := by
        rw [hlen]; omega
      obtain ⟨v, hv⟩ : ∃ v, (logicalValues s).get? (i + (s.rows.length : Int)).toNat = some v :=
        ⟨_, List.get?_eq_get hlt⟩
      refine ⟨v, ?_, ?_⟩
      · have hmod : (i % (s.rows.length : Int)).toNat =
            (i + (s.rows.length : Int)).toNat := by
          rw [emod_of_neg_range (by omega) (by omega) (by omega)]
        rw [hmod]; exact hv
      · rw [getInt_unfold, e1, e2]
        have hlim : i + 1 + (s.rows.length : Int) - (i + (s.rows.length : Int)) = 1 := by omega
        rw [hlim]
        have : sqlLimitOffset (logicalValues s) 1 (i + (s.rows.length : Int)) =
            ((logicalValues s).drop (i + (s.rows.length : Int)).toNat).take 1 := by
          simp [sqlLimitOffset]
        rw [this, head?_take _ _ (by omega), head?_drop, hv]

/-- C6 (amended): for `i` outside `[-n, n-1]`, `get(i)` fails with
`IndexOutOfRange`; for `i` inside the range it succeeds and returns the
element at ascending-key rank `i mod n` — except for the single corner
case `n = 1, i = -1`, where the normalization produces `LIMIT 0` and the
code raises `IndexError` for a valid index (see `c6_counterexample`). -/
theorem c6_amended (s : SQ) (i : Int) :
    (i < -(s.rows.length : Int) ∨ (s.rows.length : Int) - 1 < i →
      getInt s i = Except.error PyErr.indexError) ∧
    (-(s.rows.length : Int) ≤ i → i ≤ (s.rows.length : Int) - 1 →
      ¬(s.rows.length = 1 ∧ i = -1) →
      ∃ v, (logicalValues s).get? (i % (s.rows.length : Int)).toNat = some v ∧
        getInt s i = Except.ok v) :=
  ⟨getInt_out_range s i, getInt_in_range s i⟩

/-- C6 witness: on the 2-element sequence `[10, 20]`, index 5 is out of
range and `get(5)` raises `IndexError`; index 0 is in range and `get(0)`
returns the rank-0 element. -/
theorem c6_amended_witness :
    ((5 : Int) < -((mkPlainSeq [10, 20]).rows.length : Int) ∨
      ((mkPlainSeq [10, 20]).rows.length : Int) - 1 < (5 : Int)) ∧
    getInt (mkPlainSeq [10, 20]) 5 = Except.error PyErr.indexError ∧
    getInt (mkPlainSeq [10, 20]) 0 = Except.ok (PyVal.vInt 10) := by
  refine ⟨Or.inr (by decide), (c6_amended (mkPlainSeq [10, 20]) 5).1 (Or.inr (by decide)), ?_⟩
  obtain ⟨v, hv, hget⟩ :=
    (c6_amended (mkPlainSeq [10, 20]) 0).2 (by decide) (by decide) (by decide)
  have : v = PyVal.vInt 10 := by
    have : (logicalValues (mkPlainSeq [10, 20])).get?
        ((0 : Int) % ((mkPlainSeq [10, 20]).rows.length : Int)).toNat =
        some (PyVal.vInt 10) := by rfl
    rw [this] at hv
    exact (Option.some_injective _ hv).symm
  rw [← this]; exact hget

/-! ## C7: slices with positive non-unit step -/

theorem sliceIndices_pos (start stop : Option Int) (step : Int) (h : 0 < step) (n : Nat) :
    (sliceIndices start stop step n).1 = (sliceIndices start stop 1 n).1 ∧
    (sliceIndices start stop step n).2.1 = (sliceIndices start stop 1 n).2.1 := by
  unfold sliceIndices
  have h1 : ¬(step < 0) := by omega
  have h2 : ¬((1 : Int) < 0) := by omega
  simp only [if_neg h1, if_neg h2]
  constructor <;> cases start <;> cases stop <;> simp

/-- C7 (amended): for a slice with positive step `>= 2` the step is
ignored: the result is identical to the same slice with step 1 — never
strided — and whenever the normalized `stop - offset` is nonnegative it is
the contiguous block of `stop - offset` elements starting at rank
`offset`.  (When `stop < offset` the negative `LIMIT` is unlimited and the
result is the block from rank `offset` to the end, equally unstrided; for
negative steps the normalization itself differs and the claimed equality
with the step-1 slice fails, see `c7_counterexample`.) -/
theorem c7_amended (s : SQ) (start stop : Option Int) (step : Int) (hs : 2 ≤ step) :
    getSlice s start stop step = getSlice s start stop 1 ∧
    (0 ≤ (sliceIndices start stop step s.rows.length).2.1 -
        (sliceIndices start stop step s.rows.length).1 →
      getSlice s start stop step = Except.ok
        (((logicalValues s).drop (sliceIndices start stop step s.rows.length).1.toNat).take
          ((sliceIndices start stop step s.rows.length).2.1 -
            (sliceIndices start stop step s.rows.length).1).toNat)) := by
  have h0 : ¬(step = 0) := by omega
  have h1 : ¬((1 : Int) = 0) := by omega
  obtain ⟨ea, eb⟩ := sliceIndices_pos start stop step (by omega) s.rows.length
  constructor
  · simp only [getSlice, if_neg h0, if_neg h1]
    rw [ea, eb]
  · intro hge
    simp only [getSlice, if_neg h0]
    congr 1
    simp only [sqlLimitOffset]
    rw [if_neg (by omega)]

/-- C7 witness: the slice `[::2]` of `[10, 20, 30]` returns the same
contiguous block as `[::1]` (not a strided selection). -/
theorem c7_amended_witness :
    (2 : Int) ≤ 2 ∧
      getSlice (mkPlainSeq [10, 20, 30]) Option.none Option.none 2 =
        getSlice (mkPlainSeq [10, 20, 30]) Option.none Option.none 1 :=
  ⟨le_refl 2, (c7_amended (mkPlainSeq [10, 20, 30]) Option.none Option.none 2 (le_refl 2)).1⟩

/-! ## C5: set followed by get -/

theorem get?_map_row (f : Row → PyVal) (l : List Row) (n : Nat) :
    (l.map f).get? n = (l.get? n).map f := by
  induction l generalizing n with
  | nil => rfl
  | cons x xs ih =>
    cases n with
    | zero => rfl
    | succ m => exact ih m

theorem get?_set_self_row (l : List Row) (o : Nat) (u : Row) (h : o < l.length) :
    (l.set o u).get? o = some u := by
  induction l generalizing o with
  | nil => simp at h
  | cons x xs ih =>
    cases o with
    | zero => rfl
    | succ m => exact ih m (by simpa using h)

theorem mem_set_row {l : List Row} {o : Nat} {u r : Row} (h : r ∈ l.set o u) :
    r ∈ l ∨ r = u := by
  induction l generalizing o with
  | nil => simp at h
  | cons x xs ih =>
    cases o with
    | zero =>
      rcases List.mem_cons.mp h with h | h
      · exact Or.inr h
      · exact Or.inl (List.mem_cons_of_mem x h)
    | succ m =>
      rcases List.mem_cons.mp h with h | h
      · exact Or.inl (h ▸ List.mem_cons_self x xs)
      · rcases ih h with h | h
        · exact Or.inl (List.mem_cons_of_mem x h)
        · exact Or.inr h

theorem get?_mem_row {l : List Row} {n : Nat} {a : Row} (h : l.get? n = some a) :
    a ∈ l := by
  induction l generalizing n with
  | nil => simp at h
  | cons x xs ih =>
    cases n with
    | zero => exact (Option.some_injective _ h) ▸ List.mem_cons_self x xs
    | succ m => exact List.mem_cons_of_mem x (ih h)

theorem map_noop (xs : List Row) (rid0 : Nat) (g : Row → Row)
    (h : ∀ r ∈ xs, r.rid ≠ rid0) :
    (xs.map fun r => if r.rid = rid0 then g r else r) = xs := by
  induction xs with
  | nil => rfl
  | cons x xs ih =>
    have hx : x.rid ≠ rid0 := h x (List.mem_cons_self x xs)
    simp only [List.map_cons, if_neg hx]
    rw [ih fun r hr => h r (List.mem_cons_of_mem x hr)]

/-- `UPDATE ... WHERE _rowid_ = t.rid` touches exactly the row at position
`o` when rowids are distinct. -/
theorem map_replace_eq_set (l : List Row) (o : Nat) (t : Row) (g : Row → Row)
    (hnod : (l.map Row.rid).Nodup) (ht : l.get? o = some t) :
    (l.map fun r => if r.rid = t.rid then g r else r) = l.set o (g t) := by
  induction l generalizing o with
  | nil => simp at ht
  | cons x xs ih =>
    have hnx : x.rid ∉ xs.map Row.rid := by
      simp only [List.map_cons, List.nodup_cons] at hnod
      exact hnod.1
    have hnxs : (xs.map Row.rid).Nodup := by
      simp only [List.map_cons, List.nodup_cons] at hnod
      exact hnod.2
    cases o with
    | zero =>
      have hx : x = t := Option.some_injective _ ht
      subst hx
      simp only [List.map_cons, List.set, eq_self_iff_true, if_true]
      rw [map_noop xs x.rid g fun r hr he => hnx (he ▸ List.mem_map_of_mem Row.rid hr)]
    | succ m =>
      have htm : t ∈ xs := get?_mem_row ht
      have hx : x.rid ≠ t.rid := fun he => hnx (he ▸ List.mem_map_of_mem Row.rid htm)
      simp only [List.map_cons, if_neg hx, List.set]
      rw [ih m hnxs ht]

theorem intIndices_fst (i : Int) (n : Nat) :
    (intIndices i n).1 = adjustIndex i 0 (n : Int) (n : Int) := by
  simp [intIndices, sliceIndices, show ¬((1 : Int) < 0) by norm_num]

/-- C5 (amended): on a sequence without a key function (the key callable
is `lambda x: None` and every stored order key is NULL; rowids are
distinct, as SQLite guarantees), `set(i, v)` followed by `get(i)` returns
`v` for every valid index `i` — except the corner case `len = 1, i = -1`
where `get` itself fails (see `c6_counterexample`).  For sequences created
with a key function the claim is false (`c5_counterexample`): the update
rewrites the target row's order key to `key(v)`, which can re-rank the row
so that `get(i)` returns a different element. -/
theorem c5_amended (s : SQ) (i : Int) (v : PyVal)
    (hkey : s.key = some (fun _ => PyVal.vNone))
    (hkeys : ∀ r ∈ s.rows, r.key = PyVal.vNone)
    (hnod : (s.rows.map Row.rid).Nodup)
    (h1 : -(s.rows.length : Int) ≤ i) (h2 : i ≤ (s.rows.length : Int) - 1)
    (h3 : ¬(s.rows.length = 1 ∧ i = -1)) :
    ∃ s', setItem s i v = Except.ok s' ∧ getInt s' i = Except.ok v := by
  have hn : 1 ≤ s.rows.length := by omega
  have hLO : logicalOrder s.rows = s.rows := logicalOrder_eq_self s.rows hkeys
  have hoadj : (intIndices i s.rows.length).1 = adjustIndex i 0 (s.rows.length : Int)
      (s.rows.length : Int) := intIndices_fst i s.rows.length
  have homod : (adjustIndex i 0 (s.rows.length : Int) (s.rows.length : Int)).toNat =
      (i % (s.rows.length : Int)).toNat := by
    by_cases hi0 : 0 ≤ i
    · rw [Int.emod_eq_of_lt hi0 (by omega)]
      unfold adjustIndex; split_ifs <;> omega
    · rw [emod_of_neg_range (by omega) (by omega) (by omega)]
      unfold adjustIndex; split_ifs <;> omega
  set oNat := (adjustIndex i 0 (s.rows.length : Int) (s.rows.length : Int)).toNat with hodef
  have holt : oNat < s.rows.length := by
    rw [hodef]
    unfold adjustIndex; split_ifs <;> omega
  obtain ⟨t, ht⟩ : ∃ t, s.rows.get? oNat = some t :=
    ⟨_, List.get?_eq_get holt⟩
  set u : Row := { t with key := PyVal.vNone, value := v } with hudef
  have hset : setItem s i v = Except.ok
      { rows := s.rows.set oNat u, committed := s.rows.set oNat u, key := s.key } := by
    simp only [setItem, hkey, hoadj, hLO, ht]
    rw [map_replace_eq_set s.rows oNat t
      (fun r => { r with key := PyVal.vNone, value := v }) hnod ht]
  refine ⟨_, hset, ?_⟩
  set s' : SQ :=
    { rows := s.rows.set oNat u, committed := s.rows.set oNat u, key := s.key } with hs'
  have hlen' : s'.rows.length = s.rows.length := by
    simp [hs', List.length_set]
  have hkeys' : ∀ r ∈ s'.rows, r.key = PyVal.vNone := by
    intro r hr
    rcases mem_set_row hr with h | h
    · exact hkeys r h
    · rw [h, hudef]
  obtain ⟨w, hw1, hw2⟩ := getInt_in_range s' i (by rw [hlen']; exact h1)
    (by rw [hlen']; exact h2) (by rw [hlen']; exact h3)
  have hLO' : logicalOrder s'.rows = s'.rows := logicalOrder_eq_self s'.rows hkeys'
  have hwv : w = v := by
    have hval : (logicalValues s').get? (i % (s'.rows.length : Int)).toNat = some v := by
      rw [logicalValues, hLO', get?_map_row]
      have : s'.rows.get? oNat = some u := get?_set_self_row s.rows oNat u holt
      rw [hlen', ← homod, this, hudef]
      rfl
    rw [hval] at hw1
    exact (Option.some_injective _ hw1).symm
  rw [← hwv]
  exact hw2

/-- C5 witness: on the key-less singleton sequence `[10]`, `set(0, 7)`
followed by `get(0)` returns `7`. -/
theorem c5_amended_witness :
    ((mkPlainSeq [10]).key = some fun _ => PyVal.vNone) ∧
      (∀ r ∈ (mkPlainSeq [10]).rows, r.key = PyVal.vNone) ∧
      ∃ s', setItem (mkPlainSeq [10]) 0 (PyVal.vInt 7) = Except.ok s' ∧
        getInt s' 0 = Except.ok (PyVal.vInt 7) :=
  ⟨rfl, by decide,
    c5_amended (mkPlainSeq [10]) 0 (PyVal.vInt 7) rfl (by decide) (by decide)
      (by decide) (by decide) (by decide)⟩

/-! ## List index helpers for the sort proofs -/

theorem get?_drop_add {α : Type} (l : List α) (n m : Nat) :
    (l.drop n).get? m = l.get? (n + m) := by
  induction l generalizing n with
  | nil => simp
  | cons x xs ih =>
    cases n with
    | zero => simp
    | succ k =>
      rw [List.drop_succ_cons, show k + 1 + m = (k + m) + 1 from by omega,
        List.get?_cons_succ]
      exact ih k

theorem get?_append_left {α : Type} (l1 l2 : List α) (j : Nat) (h : j < l1.length) :
    (l1 ++ l2).get? j = l1.get? j := by
  induction l1 generalizing j with
  | nil => simp at h
  | cons x xs ih =>
    cases j with
    | zero => rfl
    | succ m => exact ih m (by simpa using h)

theorem get?_take_lt {α : Type} (l : List α) (n j : Nat) (h : j < n) :
    (l.take n).get? j = l.get? j := by
  induction l generalizing n j with
  | nil => simp
  | cons x xs ih =>
    cases n with
    | zero => omega
    | succ k =>
      cases j with
      | zero => rfl
      | succ m => exact ih k m (by omega)

theorem get?_lt_length {α : Type} {l : List α} {n : Nat} {a : α}
    (h : l.get? n = some a) : n < l.length := by
  induction l generalizing n with
  | nil => simp at h
  | cons x xs ih =>
    cases n with
    | zero => simp
    | succ m => simpa using ih h

theorem chain'_of_get? {α : Type} {R : α → α → Prop} {l : List α}
    (h : ∀ j a b, l.get? j = some a → l.get? (j + 1) = some b → R a b) :
    l.Chain' R := by
  induction l with
  | nil => exact List.chain'_nil
  | cons x xs ih =>
    cases xs with
    | nil => simp
    | cons y ys =>
      refine List.chain'_cons.mpr ⟨h 0 x y rfl rfl, ih ?_⟩
      intro j a b ha hb
      exact h (j + 1) a b ha hb

/-! ## Comparison facts for the sort termination and correctness -/

theorem pyGt_isSome_iff (x y : PyVal) :
    (pyGt x y).isSome = true ↔ keyRank x = keyRank y ∧ keyRank x ≠ 0 := by
  cases x <;> cases y <;> simp [pyGt, keyRank]

theorem pyLt_isSome_eq (x y : PyVal) : (pyLt x y).isSome = (pyGt x y).isSome := by
  cases x <;> cases y <;> rfl

theorem swapRequired_isSome (rev : Bool) (x y : PyVal) :
    (swapRequired rev x y).isSome = (pyGt x y).isSome := by
  cases rev <;> simp [swapRequired, pyLt_isSome_eq]

theorem pyGt_true_oo {x y : PyVal} (h : pyGt x y = some true) :
    sqliteKeyLt y x = true ∧ sqliteKeyLt x y = false := by
  cases x with
  | vNone => simp [pyGt] at h
  | vInt a =>
    cases y with
    | vNone => simp [pyGt] at h
    | vInt b =>
      simp only [pyGt, Option.some_inj, decide_eq_true_eq] at h
      simp only [sqliteKeyLt, decide_eq_true_eq, decide_eq_false_iff_not]
      exact ⟨h, by omega⟩
    | vStr b => simp [pyGt] at h
  | vStr a =>
    cases y with
    | vNone => simp [pyGt] at h
    | vInt b => simp [pyGt] at h
    | vStr b =>
      simp only [pyGt, Option.some_inj, decide_eq_true_eq] at h
      simp only [sqliteKeyLt, decide_eq_true_eq, decide_eq_false_iff_not]
      exact ⟨h, lt_asymm h⟩

theorem pyLt_true_oo {x y : PyVal} (h : pyLt x y = some true) :
    sqliteKeyLt x y = true ∧ sqliteKeyLt y x = false := by
  cases x with
  | vNone => simp [pyLt] at h
  | vInt a =>
    cases y with
    | vNone => simp [pyLt] at h
    | vInt b =>
      simp only [pyLt, Option.some_inj, decide_eq_true_eq] at h
      simp only [sqliteKeyLt, decide_eq_true_eq, decide_eq_false_iff_not]
      exact ⟨h, by omega⟩
    | vStr b => simp [pyLt] at h
  | vStr a =>
    cases y with
    | vNone => simp [pyLt] at h
    | vInt b => simp [pyLt] at h
    | vStr b =>
      simp only [pyLt, Option.some_inj, decide_eq_true_eq] at h
      simp only [sqliteKeyLt, decide_eq_true_eq, decide_eq_false_iff_not]
      exact ⟨h, lt_asymm h⟩

/-- A required swap is a strict inversion for the direction being sorted,
and the swapped pair is not. -/
theorem swapRequired_true_oo {rev : Bool} {x y : PyVal}
    (h : swapRequired rev x y = some true) :
    oo rev x y = true ∧ oo rev y x = false := by
  cases rev
  · have h' : pyGt x y = some true := by simpa [swapRequired] using h
    obtain ⟨h1, h2⟩ := pyGt_true_oo h'
    exact ⟨by simpa [oo] using h1, by simpa [oo] using h2⟩
  · have h' : pyLt x y = some true := by simpa [swapRequired] using h
    obtain ⟨h1, h2⟩ := pyLt_true_oo h'
    exact ⟨by simpa [oo] using h1, by simpa [oo] using h2⟩

theorem invCount_cons (rev : Bool) (x : PyVal) (xs : List PyVal) :
    invCount rev (x :: xs) = xs.countP (fun y => oo rev x y) + invCount rev xs := rfl

/-- Swapping an adjacent strictly-inverted pair removes exactly one
inversion. -/
theorem invCount_swap (rev : Bool) (pre suf : List PyVal) (a b : PyVal)
    (h1 : oo rev a b = true) (h2 : oo rev b a = false) :
    invCount rev (pre ++ b :: a :: suf) + 1 = invCount rev (pre ++ a :: b :: suf) := by
  induction pre with
  | nil =>
    simp only [List.nil_append, invCount_cons, List.countP_cons, h1, h2]
    simp
    omega
  | cons x xs ih =>
    simp only [List.cons_append, invCount_cons]
    have hperm : (xs ++ b :: a :: suf).Perm (xs ++ a :: b :: suf) :=
      List.Perm.append_left xs (List.Perm.swap a b suf)
    rw [hperm.countP_eq]
    omega

/-! ## The sort loop: termination, permutation, and adjacency -/

theorem rows_decomp {rows : List Row} {pos : Nat} {a b : Row} {rest : List Row}
    (hd : rows.drop pos = a :: b :: rest) :
    rows = rows.take pos ++ a :: b :: rest ∧ pos + 2 ≤ rows.length := by
  constructor
  · rw [← hd, List.take_append_drop]
  · have hl := List.length_drop pos rows
    rw [hd] at hl
    simp only [List.length_cons] at hl
    omega

theorem swap_maps (rows rows' : List Row) (pos : Nat) (a b : Row) (rest : List Row)
    (hd : rows.drop pos = a :: b :: rest)
    (hr : rows' = rows.take pos ++ ⟨a.rid, a.key, b.value⟩ :: ⟨b.rid, b.key, a.value⟩ :: rest) :
    (rows'.map Row.value).Perm (rows.map Row.value) ∧
      rows'.map Row.key = rows.map Row.key ∧
      rows'.length = rows.length := by
  have hdec := (rows_decomp hd).1
  subst hr
  refine ⟨?_, ?_, ?_⟩
  · conv_rhs => rw [hdec]
    simp only [List.map_append, List.map_cons]
    exact List.Perm.append_left _ (List.Perm.swap a.value b.value _)
  · conv_rhs => rw [hdec]
    simp only [List.map_append, List.map_cons]
  · conv_rhs => rw [hdec]
    simp [List.length_append]

theorem swap_inv (kf : PyVal → PyVal) (rev : Bool) (rows rows' : List Row) (pos : Nat)
    (a b : Row) (rest : List Row)
    (hd : rows.drop pos = a :: b :: rest)
    (hr : rows' = rows.take pos ++ ⟨a.rid, a.key, b.value⟩ :: ⟨b.rid, b.key, a.value⟩ :: rest)
    (hc : swapRequired rev (kf a.value) (kf b.value) = some true) :
    invCount rev (rows'.map fun r => kf r.value) + 1 =
      invCount rev (rows.map fun r => kf r.value) := by
  have hdec := (rows_decomp hd).1
  have hoo := swapRequired_true_oo hc
  subst hr
  have e1 : (rows.take pos ++
      (⟨a.rid, a.key, b.value⟩ : Row) :: (⟨b.rid, b.key, a.value⟩ : Row) :: rest).map
        (fun r => kf r.value) =
      ((rows.take pos).map fun r => kf r.value) ++
        kf b.value :: kf a.value :: (rest.map fun r => kf r.value) := by
    simp
  have e2 : rows.map (fun r => kf r.value) =
      ((rows.take pos).map fun r => kf r.value) ++
        kf a.value :: kf b.value :: (rest.map fun r => kf r.value) := by
    conv_lhs => rw [hdec]
    simp
  rw [e1, e2]
  exact invCount_swap rev _ _ _ _ hoo.1 hoo.2

/-- With fuel exceeding the inversion-count measure, the loop never runs
out: `sortFuel` always suffices. -/
theorem sortLoop_isSome (kf : PyVal → PyVal) (rev : Bool) :
    ∀ (fuel : Nat) (rows : List Row) (pos : Nat),
      invCount rev (rows.map fun r => kf r.value) * (rows.length + 1) +
          (rows.length - pos) < fuel →
      (sortLoop kf rev fuel rows pos).isSome = true := by
  intro fuel
  induction fuel with
  | zero => intro rows pos h; omega
  | succ n ih =>
    intro rows pos h
    simp only [sortLoop]
    split
    · rename_i a b rest hd
      split
      · -- comparison TypeError
        simp
      · -- swap and retreat
        rename_i hc'
        apply ih
        have hlen := (rows_decomp hd).2
        have hmm := swap_inv kf rev rows _ pos a b rest hd rfl hc'
        have hlen' := (swap_maps rows _ pos a b rest hd rfl).2.2
        rw [hlen']
        have hmul : invCount rev (rows.map fun r => kf r.value) * (rows.length + 1) =
            invCount rev ((rows.take pos ++
              (⟨a.rid, a.key, b.value⟩ : Row) :: (⟨b.rid, b.key, a.value⟩ : Row) :: rest).map
                fun r => kf r.value) * (rows.length + 1) + (rows.length + 1) := by
          rw [← hmm]
          ring
        omega
      · -- no swap: advance
        apply ih
        have hlen := (rows_decomp hd).2
        omega
    · simp

/-- A successful loop run permutes the value payloads, keeps every key (and
the list length) in place. -/
theorem sortLoop_ok_elems (kf : PyVal → PyVal) (rev : Bool) :
    ∀ (fuel : Nat) (rows : List Row) (pos : Nat) (out : List Row),
      sortLoop kf rev fuel rows pos = some (Except.ok out) →
      (out.map Row.value).Perm (rows.map Row.value) ∧
        out.map Row.key = rows.map Row.key ∧ out.length = rows.length := by
  intro fuel
  induction fuel with
  | zero => intro rows pos out h; simp [sortLoop] at h
  | succ n ih =>
    intro rows pos out h
    simp only [sortLoop] at h
    split at h
    · rename_i a b rest hd
      split at h
      · -- comparison TypeError: contradiction
        simp at h
      · -- swap and retreat
        rename_i hc'
        obtain ⟨hperm, hkeys, hlen⟩ := ih _ _ _ h
        obtain ⟨hp2, hk2, hl2⟩ := swap_maps rows _ pos a b rest hd rfl
        exact ⟨hperm.trans hp2, hkeys.trans hk2, hlen.trans hl2⟩
      · -- no swap: advance
        exact ih _ _ _ h
    · -- fewer than two rows remain: done
      have hout : rows = out := by simpa using h
      subst hout
      exact ⟨List.Perm.refl _, rfl, rfl⟩

/-- A successful loop run, started with its sorted-prefix invariant,
leaves no adjacent pair that would still require a swap. -/
theorem sortLoop_ok_adj (kf : PyVal → PyVal) (rev : Bool) :
    ∀ (fuel : Nat) (rows : List Row) (pos : Nat) (out : List Row),
      sortLoop kf rev fuel rows pos = some (Except.ok out) →
      (∀ j a b, j + 1 ≤ pos → rows.get? j = some a → rows.get? (j + 1) = some b →
        swapRequired rev (kf a.value) (kf b.value) = some false) →
      ∀ j a b, out.get? j = some a → out.get? (j + 1) = some b →
        swapRequired rev (kf a.value) (kf b.value) = some false := by
  intro fuel
  induction fuel with
  | zero => intro rows pos out h; simp [sortLoop] at h
  | succ n ih =>
    intro rows pos out h hpre
    simp only [sortLoop] at h
    split at h
    · rename_i a b rest hd
      split at h
      · simp at h
      · -- swap and retreat
        rename_i hc'
        have hlen := (rows_decomp hd).2
        refine ih _ _ _ h ?_
        intro j a' b' hj ha hb
        have hjlt : j + 1 < pos := by omega
        have htklen : (rows.take pos).length = pos := by
          rw [List.length_take]
          omega
        have hja : rows.get? j = some a' := by
          rw [← get?_take_lt rows pos j (by omega),
            ← get?_append_left (rows.take pos)
              (⟨a.rid, a.key, b.value⟩ :: ⟨b.rid, b.key, a.value⟩ :: rest) j
              (by rw [htklen]; omega)]
          exact ha
        have hjb : rows.get? (j + 1) = some b' := by
          rw [← get?_take_lt rows pos (j + 1) (by omega),
            ← get?_append_left (rows.take pos)
              (⟨a.rid, a.key, b.value⟩ :: ⟨b.rid, b.key, a.value⟩ :: rest) (j + 1)
              (by rw [htklen]; omega)]
          exact hb
        exact hpre j a' b' (by omega) hja hjb
      · -- no swap: advance
        rename_i hc'
        refine ih _ _ _ h ?_
        intro j a' b' hj ha hb
        by_cases hje : j + 1 ≤ pos
        · exact hpre j a' b' hje ha hb
        · have hjp : j = pos := by omega
          subst hjp
          have hga : rows.get? j = some a := by
            rw [← head?_drop, hd]
            rfl
          have hgb : rows.get? (j + 1) = some b := by
            rw [← get?_drop_add rows j 1, hd]
            rfl
          rw [ha] at hga
          rw [hb] at hgb
          have ea : a' = a := Option.some_injective _ hga
          have eb : b' = b := Option.some_injective _ hgb
          rw [ea, eb]
          exact hc'
    · -- fewer than two rows remain
      rename_i hnomatch
      have hout : rows = out := by simpa using h
      subst hout
      intro j a' b' ha hb
      have hlen2 : rows.length ≤ pos + 1 := by
        rcases hdd : rows.drop pos with _ | ⟨x, _ | ⟨y, t⟩⟩
        · have := List.length_drop pos rows
          rw [hdd] at this
          simp at this
          omega
        · have := List.length_drop pos rows
          rw [hdd] at this
          simp at this
          omega
        · exact absurd hdd (hnomatch x y t)
      have hjb := get?_lt_length hb
      exact hpre j a' b' (by omega) ha hb

/-- When every pair of stored values is comparable under the effective
key, the loop never raises. -/
theorem sortLoop_no_error (kf : PyVal → PyVal) (rev : Bool) :
    ∀ (fuel : Nat) (rows : List Row) (pos : Nat),
      (∀ x ∈ rows.map Row.value, ∀ y ∈ rows.map Row.value,
        (swapRequired rev (kf x) (kf y)).isSome = true) →
      sortLoop kf rev fuel rows pos ≠ some (Except.error ()) := by
  intro fuel
  induction fuel with
  | zero => intro rows pos hcomp h; simp [sortLoop] at h
  | succ n ih =>
    intro rows pos hcomp h
    simp only [sortLoop] at h
    split at h
    · rename_i a b rest hd
      split at h
      · -- the comparison failed, but both operands are stored values
        rename_i hc'
        have hma : a ∈ rows := List.drop_subset pos rows (hd ▸ List.mem_cons_self a (b :: rest))
        have hmb : b ∈ rows :=
          List.drop_subset pos rows (hd ▸ List.mem_cons_of_mem a (List.mem_cons_self b rest))
        have := hcomp a.value (List.mem_map_of_mem Row.value hma)
          b.value (List.mem_map_of_mem Row.value hmb)
        rw [hc'] at this
        simp at this
      · -- swap and retreat
        rename_i hc'
        refine ih _ _ ?_ h
        intro x hx y hy
        have hp2 := (swap_maps rows _ pos a b rest hd rfl).1
        exact hcomp x (hp2.mem_iff.mp hx) y (hp2.mem_iff.mp hy)
      · exact ih _ _ hcomp h
    · simp at h

theorem sortOp_keyed (s : SQ) (keyArg : Option (PyVal → PyVal)) (reverse : Bool)
    (hks : s.key.isSome = true) :
    sortOp s keyArg reverse =
      match sortLoop (keyArg.getD id) reverse
          (sortFuel (keyArg.getD id) reverse (s.rows.map fun r => { r with key := PyVal.vNone }))
          (s.rows.map fun r => { r with key := PyVal.vNone }) 0 with
      | some (Except.ok rows') => some (Except.ok (),
          { rows := rows', committed := s.committed, key := Option.none })
      | some (Except.error _) => some (Except.error PyErr.typeError,
          { rows := s.committed, committed := s.committed, key := Option.none })
      | Option.none => Option.none := by
  simp only [sortOp]
  rw [if_pos hks]

theorem sortOp_unkeyed (s : SQ) (keyArg : Option (PyVal → PyVal)) (reverse : Bool)
    (hks : ¬(s.key.isSome = true)) :
    sortOp s keyArg reverse =
      match sortLoop (keyArg.getD id) reverse
          (sortFuel (keyArg.getD id) reverse s.rows) s.rows 0 with
      | some (Except.ok rows') => some (Except.ok (),
          { rows := rows', committed := s.committed, key := s.key })
      | some (Except.error _) => some (Except.error PyErr.typeError,
          { rows := s.committed, committed := s.committed, key := s.key })
      | Option.none => Option.none := by
  simp only [sortOp]
  rw [if_neg hks]

theorem get?_map_row_inv {l : List Row} {j : Nat} {x : PyVal}
    (h : (l.map Row.value).get? j = some x) :
    ∃ a, l.get? j = some a ∧ a.value = x := by
  rw [get?_map_row] at h
  cases hg : l.get? j with
  | none => rw [hg] at h; simp at h
  | some a => rw [hg] at h; exact ⟨a, rfl, by simpa using h⟩

/-- Core success run of the loop: comparable values give a completed run
whose output values are a permutation of the input values, with keys left
positionally unchanged, and with no adjacent pair still requiring a swap. -/
theorem sort_core (kf : PyVal → PyVal) (rev : Bool) (rows : List Row)
    (hcomp : ∀ x ∈ rows.map Row.value, ∀ y ∈ rows.map Row.value,
      (swapRequired rev (kf x) (kf y)).isSome = true) :
    ∃ out, sortLoop kf rev (sortFuel kf rev rows) rows 0 = some (Except.ok out) ∧
      (out.map Row.value).Perm (rows.map Row.value) ∧
      out.map Row.key = rows.map Row.key ∧
      List.Chain' (fun x y => swapRequired rev (kf x) (kf y) = some false)
        (out.map Row.value) := by
  have hsome := sortLoop_isSome kf rev (sortFuel kf rev rows) rows 0
    (by unfold sortFuel; omega)
  have hne := sortLoop_no_error kf rev (sortFuel kf rev rows) rows 0 hcomp
  obtain ⟨e, he⟩ := Option.isSome_iff_exists.mp hsome
  cases e with
  | error u =>
    cases u
    exact absurd he hne
  | ok out =>
    obtain ⟨hperm, hkeys, _⟩ := sortLoop_ok_elems kf rev _ _ _ _ he
    have hadj := sortLoop_ok_adj kf rev _ _ _ _ he
      (fun j a b hj _ _ => absurd hj (by omega))
    refine ⟨out, he, hperm, hkeys, ?_⟩
    apply chain'_of_get?
    intro j x y hx hy
    obtain ⟨a, ha, hax⟩ := get?_map_row_inv hx
    obtain ⟨b, hb, hby⟩ := get?_map_row_inv hy
    rw [← hax, ← hby]
    exact hadj j a b ha hb

/-- C1: on a sequence whose stored values are mutually comparable under
the effective sort key (the explicit `key` argument when given, else the
identity), `sort()` succeeds, and iterating afterwards yields the same
multiset of elements as iterating before the call, with every adjacent
pair in non-decreasing key order (no pair makes `swap_required` true:
`key(prev) > key(next)` is `False`).  With `reverse=True` the comparison
is `<`, i.e. the order is non-increasing.  The hypothesis on `s.key`
states that a sequence that has already been sorted (its key attribute is
`None`) carries only NULL order keys.  This excludes the state left
behind by a *failed* sort, where `self.key = None` persists while the
rolled-back order keys do not stay NULL; in that state a later successful
sort does not deliver sorted iteration (see `c1_counterexample`). -/
theorem c1_sort_correct (s : SQ) (keyArg : Option (PyVal → PyVal)) (reverse : Bool)
    (hkeys : s.key.isSome = true ∨ ∀ r ∈ s.rows, r.key = PyVal.vNone)
    (hcomp : ∀ x ∈ s.rows.map Row.value, ∀ y ∈ s.rows.map Row.value,
      (pyGt ((keyArg.getD id) x) ((keyArg.getD id) y)).isSome = true) :
    ∃ s', sortOp s keyArg reverse = some (Except.ok (), s') ∧
      ((logicalValues s' : Multiset PyVal) = (logicalValues s : Multiset PyVal)) ∧
      List.Chain' (fun x y =>
        swapRequired reverse ((keyArg.getD id) x) ((keyArg.getD id) y) = some false)
        (logicalValues s') := by
  have hcomp' : ∀ x ∈ s.rows.map Row.value, ∀ y ∈ s.rows.map Row.value,
      (swapRequired reverse ((keyArg.getD id) x) ((keyArg.getD id) y)).isSome = true := by
    intro x hx y hy
    rw [swapRequired_isSome]
    exact hcomp x hx y hy
  have hls : (logicalValues s).Perm (s.rows.map Row.value) :=
    (logicalOrder_perm s.rows).map Row.value
  by_cases hks : s.key.isSome = true
  · -- the key column is cleared first
    have h1vals : (s.rows.map fun r => { r with key := PyVal.vNone }).map Row.value =
        s.rows.map Row.value := by
      rw [List.map_map]
      rfl
    have hcomp1 : ∀ x ∈ (s.rows.map fun r => { r with key := PyVal.vNone }).map Row.value,
        ∀ y ∈ (s.rows.map fun r => { r with key := PyVal.vNone }).map Row.value,
        (swapRequired reverse ((keyArg.getD id) x) ((keyArg.getD id) y)).isSome = true := by
      rw [h1vals]
      exact hcomp'
    obtain ⟨out, he, hperm, hkeyeq, hchain⟩ :=
      sort_core (keyArg.getD id) reverse (s.rows.map fun r => { r with key := PyVal.vNone })
        hcomp1
    have houtkeys : ∀ r ∈ out, r.key = PyVal.vNone := by
      intro r hr
      have hmem : r.key ∈ out.map Row.key := List.mem_map_of_mem Row.key hr
      rw [hkeyeq] at hmem
      obtain ⟨r0, hr0, he0⟩ := List.mem_map.mp hmem
      obtain ⟨r1, _, he1⟩ := List.mem_map.mp hr0
      rw [← he0, ← he1]
    refine ⟨{ rows := out, committed := s.committed, key := Option.none }, ?_, ?_, ?_⟩
    · rw [sortOp_keyed s keyArg reverse hks, he]
    · have hlv' : logicalValues { rows := out, committed := s.committed, key := Option.none } =
          out.map Row.value := by
        simp [logicalValues, logicalOrder_eq_self out houtkeys]
      rw [hlv']
      have hp : (out.map Row.value).Perm (logicalValues s) :=
        (hperm.trans (h1vals ▸ List.Perm.refl _)).trans hls.symm
      exact Multiset.coe_eq_coe.mpr hp
    · have hlv' : logicalValues { rows := out, committed := s.committed, key := Option.none } =
          out.map Row.value := by
        simp [logicalValues, logicalOrder_eq_self out houtkeys]
      rw [hlv']
      exact hchain
  · -- key already disabled: every stored key is NULL
    have h1keys : ∀ r ∈ s.rows, r.key = PyVal.vNone := hkeys.resolve_left hks
    obtain ⟨out, he, hperm, hkeyeq, hchain⟩ :=
      sort_core (keyArg.getD id) reverse s.rows hcomp'
    have houtkeys : ∀ r ∈ out, r.key = PyVal.vNone := by
      intro r hr
      have hmem : r.key ∈ out.map Row.key := List.mem_map_of_mem Row.key hr
      rw [hkeyeq] at hmem
      obtain ⟨r0, hr0, he0⟩ := List.mem_map.mp hmem
      rw [← he0]
      exact h1keys r0 hr0
    refine ⟨{ rows := out, committed := s.committed, key := s.key }, ?_, ?_, ?_⟩
    · rw [sortOp_unkeyed s keyArg reverse hks, he]
    · have hlv' : logicalValues { rows := out, committed := s.committed, key := s.key } =
          out.map Row.value := by
        simp [logicalValues, logicalOrder_eq_self out houtkeys]
      rw [hlv']
      exact Multiset.coe_eq_coe.mpr (hperm.trans hls.symm)
    · have hlv' : logicalValues { rows := out, committed := s.committed, key := s.key } =
          out.map Row.value := by
        simp [logicalValues, logicalOrder_eq_self out houtkeys]
      rw [hlv']
      exact hchain

/-- C1 witness: sorting the key-less sequence `[3, 1, 2]` ascending
succeeds with the stated multiset and ordering guarantees. -/
theorem c1_sort_correct_witness :
    ((mkPlainSeq [3, 1, 2]).key.isSome = true ∨
      ∀ r ∈ (mkPlainSeq [3, 1, 2]).rows, r.key = PyVal.vNone) ∧
    (∀ x ∈ (mkPlainSeq [3, 1, 2]).rows.map Row.value,
      ∀ y ∈ (mkPlainSeq [3, 1, 2]).rows.map Row.value,
      (pyGt ((Option.getD Option.none id) x) ((Option.getD Option.none id) y)).isSome = true) ∧
    ∃ s', sortOp (mkPlainSeq [3, 1, 2]) Option.none false = some (Except.ok (), s') ∧
      ((logicalValues s' : Multiset PyVal) =
        (logicalValues (mkPlainSeq [3, 1, 2]) : Multiset PyVal)) ∧
      List.Chain' (fun x y =>
        swapRequired false ((Option.getD Option.none id) x) ((Option.getD Option.none id) y)
          = some false) (logicalValues s') :=
  ⟨Or.inl rfl, by decide,
    c1_sort_correct (mkPlainSeq [3, 1, 2]) Option.none false (Or.inl rfl) (by decide)⟩

/-! ## C9: an incomparable pair aborts the sort and rolls back -/

theorem chain_rank {l : List PyVal} {a : PyVal}
    (h : List.Chain' (fun x y => (pyGt x y).isSome = true) (a :: l)) :
    ∀ x ∈ l, keyRank x = keyRank a ∧ keyRank a ≠ 0 := by
  induction l generalizing a with
  | nil => simp
  | cons b t ih =>
    obtain ⟨hab, htail⟩ := List.chain'_cons.mp h
    obtain ⟨hr, hnz⟩ := (pyGt_isSome_iff a b).mp hab
    intro x hx
    rcases List.mem_cons.mp hx with he | hm
    · subst he
      exact ⟨hr.symm, hnz⟩
    · obtain ⟨h1, _⟩ := ih htail x hm
      exact ⟨h1.trans hr.symm, hnz⟩

/-- A list of length at least two whose adjacent elements are all
comparable is homogeneous: every pair of its elements is comparable. -/
theorem chain_comp_total {l : List PyVal}
    (h : List.Chain' (fun x y => (pyGt x y).isSome = true) l)
    (hlen : 2 ≤ l.length) :
    ∀ x ∈ l, ∀ y ∈ l, (pyGt x y).isSome = true := by
  cases l with
  | nil => simp at hlen
  | cons a t =>
    cases t with
    | nil => simp at hlen
    | cons b t2 =>
      have hall := chain_rank h
      have hra : keyRank a ≠ 0 := (hall b (List.mem_cons_self b t2)).2
      intro x hx y hy
      have hrx : keyRank x = keyRank a := by
        rcases List.mem_cons.mp hx with he | hm
        · rw [he]
        · exact (hall x hm).1
      have hry : keyRank y = keyRank a := by
        rcases List.mem_cons.mp hy with he | hm
        · rw [he]
        · exact (hall y hm).1
      rw [pyGt_isSome_iff]
      refine ⟨hrx.trans hry.symm, ?_⟩
      rw [hrx]
      exact hra

theorem get?_map_fn_inv {f : Row → PyVal} {l : List Row} {j : Nat} {x : PyVal}
    (h : (l.map f).get? j = some x) :
    ∃ a, l.get? j = some a ∧ f a = x := by
  rw [get?_map_row] at h
  cases hg : l.get? j with
  | none => rw [hg] at h; simp at h
  | some a => rw [hg] at h; exact ⟨a, rfl, by simpa using h⟩

/-- With an incomparable pair among the stored values (and at least two
rows), the loop must raise: a completed run would certify a homogeneous
chain of comparable adjacent values, contradicting the pair. -/
theorem sort_core_error (kf : PyVal → PyVal) (rev : Bool) (rows : List Row)
    (hpair : ∃ xv ∈ rows.map Row.value, ∃ yv ∈ rows.map Row.value,
      pyGt (kf xv) (kf yv) = Option.none)
    (hlen2 : 2 ≤ rows.length) :
    sortLoop kf rev (sortFuel kf rev rows) rows 0 = some (Except.error ()) := by
  have hsome := sortLoop_isSome kf rev (sortFuel kf rev rows) rows 0
    (by unfold sortFuel; omega)
  obtain ⟨e, he⟩ := Option.isSome_iff_exists.mp hsome
  cases e with
  | error u =>
    cases u
    exact he
  | ok out =>
    exfalso
    obtain ⟨hperm, _, hlen⟩ := sortLoop_ok_elems kf rev _ _ _ _ he
    have hadj := sortLoop_ok_adj kf rev _ _ _ _ he
      (fun j a b hj _ _ => absurd hj (by omega))
    have hchain : List.Chain' (fun u v => (pyGt u v).isSome = true)
        (out.map fun r => kf r.value) := by
      apply chain'_of_get?
      intro j0 u v hu hv
      obtain ⟨a, ha, hau⟩ := get?_map_fn_inv hu
      obtain ⟨b, hb, hbv⟩ := get?_map_fn_inv hv
      have hsw := hadj j0 a b ha hb
      rw [← hau, ← hbv, ← swapRequired_isSome rev, hsw]
      rfl
    have hlenm : 2 ≤ (out.map fun r => kf r.value).length := by
      rw [List.length_map, hlen]
      exact hlen2
    have htotal := chain_comp_total hchain hlenm
    obtain ⟨xv, hxv, yv, hyv, hnone⟩ := hpair
    have hxv' : kf xv ∈ out.map fun r => kf r.value := by
      obtain ⟨r, hr, hrv⟩ := List.mem_map.mp (hperm.mem_iff.mpr hxv)
      rw [← hrv]
      exact List.mem_map_of_mem (fun r => kf r.value) hr
    have hyv' : kf yv ∈ out.map fun r => kf r.value := by
      obtain ⟨r, hr, hrv⟩ := List.mem_map.mp (hperm.mem_iff.mpr hyv)
      rw [← hrv]
      exact List.mem_map_of_mem (fun r => kf r.value) hr
    have := htotal _ hxv' _ hyv'
    rw [hnone] at this
    simp at this

/-- C9: when the sequence holds at least one pair of elements (at distinct
positions) whose effective sort keys are incomparable, `sort()` raises the
comparison `TypeError` (the spec's `NotComparable`), the transaction is
rolled back, and the logical content — the multiset of decoded stored
values — is unchanged from before the call.  The hypothesis `hinv` states
that the cursor's rows and the committed rows agree as a value multiset;
every reachable sequence satisfies it, because every other mutation
commits and a sort only permutes values (or is rolled back). -/
theorem c9_sort_incomparable (s : SQ) (keyArg : Option (PyVal → PyVal)) (reverse : Bool)
    (hinv : ((s.rows.map Row.value : List PyVal) : Multiset PyVal) =
      ((s.committed.map Row.value : List PyVal) : Multiset PyVal))
    (hpair : ∃ i j x y, i ≠ j ∧ s.rows.get? i = some x ∧ s.rows.get? j = some y ∧
      pyGt ((keyArg.getD id) x.value) ((keyArg.getD id) y.value) = Option.none) :
    ∃ s', sortOp s keyArg reverse = some (Except.error PyErr.typeError, s') ∧
      ((s'.rows.map Row.value : List PyVal) : Multiset PyVal) =
        ((s.rows.map Row.value : List PyVal) : Multiset PyVal) := by
  obtain ⟨i, j, x, y, hij, hx, hy, hnone⟩ := hpair
  have hilen := get?_lt_length hx
  have hjlen := get?_lt_length hy
  have hlen2 : 2 ≤ s.rows.length := by omega
  have hxm : x.value ∈ s.rows.map Row.value :=
    List.mem_map_of_mem Row.value (get?_mem_row hx)
  have hym : y.value ∈ s.rows.map Row.value :=
    List.mem_map_of_mem Row.value (get?_mem_row hy)
  by_cases hks : s.key.isSome = true
  · have h1vals : (s.rows.map fun r => { r with key := PyVal.vNone }).map Row.value =
        s.rows.map Row.value := by
      rw [List.map_map]
      rfl
    have he := sort_core_error (keyArg.getD id) reverse
      (s.rows.map fun r => { r with key := PyVal.vNone })
      (by rw [h1vals]; exact ⟨x.value, hxm, y.value, hym, hnone⟩)
      (by rw [List.length_map]; exact hlen2)
    refine ⟨{ rows := s.committed, committed := s.committed, key := Option.none }, ?_, ?_⟩
    · rw [sortOp_keyed s keyArg reverse hks, he]
    · exact hinv.symm
  · have he := sort_core_error (keyArg.getD id) reverse s.rows
      ⟨x.value, hxm, y.value, hym, hnone⟩ hlen2
    refine ⟨{ rows := s.committed, committed := s.committed, key := s.key }, ?_, ?_⟩
    · rw [sortOp_unkeyed s keyArg reverse hks, he]
    · exact hinv.symm

/-- The rows of the mixed sequence `[1, None]`: an int and `None` are not
comparable in Python 3. -/
def mixRows : List Row :=
  [⟨1, PyVal.vNone, PyVal.vInt 1⟩, ⟨2, PyVal.vNone, PyVal.vNone⟩]

/-- A committed sequence holding `[1, None]`, created without a key
function. -/
def mkMixSeq : SQ := ⟨mixRows, mixRows, some fun _ => PyVal.vNone⟩

/-- C9 witness: sorting `[1, None]` fails with the comparison `TypeError`
and leaves the stored multiset unchanged. -/
theorem c9_sort_incomparable_witness :
    (((mkMixSeq.rows.map Row.value : List PyVal) : Multiset PyVal) =
      ((mkMixSeq.committed.map Row.value : List PyVal) : Multiset PyVal)) ∧
    (∃ i j x y, i ≠ j ∧ mkMixSeq.rows.get? i = some x ∧ mkMixSeq.rows.get? j = some y ∧
      pyGt ((Option.getD Option.none id) x.value) ((Option.getD Option.none id) y.value) =
        Option.none) ∧
    ∃ s', sortOp mkMixSeq Option.none false = some (Except.error PyErr.typeError, s') ∧
      ((s'.rows.map Row.value : List PyVal) : Multiset PyVal) =
        ((mkMixSeq.rows.map Row.value : List PyVal) : Multiset PyVal) :=
  ⟨rfl,
    ⟨0, 1, ⟨1, PyVal.vNone, PyVal.vInt 1⟩, ⟨2, PyVal.vNone, PyVal.vNone⟩,
      by decide, rfl, rfl, rfl⟩,
    c9_sort_incomparable mkMixSeq Option.none false rfl
      ⟨0, 1, ⟨1, PyVal.vNone, PyVal.vInt 1⟩, ⟨2, PyVal.vNone, PyVal.vNone⟩,
        by decide, rfl, rfl, rfl⟩⟩

/-- A sort key mapping `2` to an int and everything else to `None`: the
images of `2` and `1` are incomparable, so comparing them raises
`TypeError`. -/
def badKey : PyVal → PyVal
  | PyVal.vInt 2 => PyVal.vInt 2
  | _ => PyVal.vNone

/-- C1 counterexample: the claim fails on a reachable sequence of
mutually comparable elements.  Start from `SQList([2, 1], key=lambda x: x)`
(stored order keys 2 and 1).  A first `sort(key=badKey)` hits an
incomparable pair: the transaction (including the key-clearing UPDATE) is
rolled back, but the attribute assignment `self.key = None` is not.  A
second plain `sort()` therefore skips the key-clearing step and
bubble-sorts the physical rows by value, while iteration still obeys the
stale non-NULL order keys: it yields `[2, 1]`, whose adjacent pair has
`key(2) > key(1)` — not non-decreasing order — although `1` and `2` are
mutually comparable under the effective (identity) key. -/
theorem c1_counterexample :
    ∃ s1 s2,
      sortOp (mkIdKeySeq [2, 1]) (some badKey) false =
        some (Except.error PyErr.typeError, s1) ∧
      s1.rows.map Row.value = [PyVal.vInt 2, PyVal.vInt 1] ∧
      (∀ x ∈ [PyVal.vInt 2, PyVal.vInt 1], ∀ y ∈ [PyVal.vInt 2, PyVal.vInt 1],
        (pyGt ((Option.getD Option.none id) x) ((Option.getD Option.none id) y)).isSome
          = true) ∧
      sortOp s1 Option.none false = some (Except.ok (), s2) ∧
      logicalValues s2 = [PyVal.vInt 2, PyVal.vInt 1] ∧
      pyGt (PyVal.vInt 2) (PyVal.vInt 1) = some true :=
  ⟨_, _, rfl, rfl, by decide, rfl, rfl, rfl⟩

/-! ## The rows/committed invariant assumed by the C9 theorem -/

/-- The cursor's rows and the committed rows agree as a multiset of
decoded values.  A fresh sequence satisfies it (the constructor commits
its inserts), and every operation preserves it, so it holds of every
reachable sequence. -/
def valInv (s : SQ) : Prop :=
  ((s.rows.map Row.value : List PyVal) : Multiset PyVal) =
    ((s.committed.map Row.value : List PyVal) : Multiset PyVal)

theorem valInv_append {s s' : SQ} {v : PyVal} (h : appendItem s v = Except.ok s') :
    valInv s' := by
  cases hk : s.key with
  | none => simp [appendItem, hk] at h
  | some kf =>
    simp only [appendItem, hk] at h
    rw [← Except.ok.inj h]
    rfl

theorem valInv_set {s s' : SQ} {i : Int} {v : PyVal} (h : setItem s i v = Except.ok s') :
    valInv s' := by
  cases hk : s.key with
  | none => simp [setItem, hk] at h
  | some kf =>
    simp only [setItem, hk] at h
    cases hg : (logicalOrder s.rows).get? (intIndices i s.rows.length).1.toNat with
    | none => rw [hg] at h; simp at h
    | some t =>
      rw [hg] at h
      rw [← Except.ok.inj h]
      rfl

theorem valInv_pop {s s' : SQ} {i : Int} {v : PyVal}
    (h : popItem s i = Except.ok (v, s')) : valInv s' := by
  simp only [popItem] at h
  cases hg : (logicalOrder s.rows).get? (intIndices i s.rows.length).1.toNat with
  | none => rw [hg] at h; simp at h
  | some t =>
    rw [hg] at h
    have h2 := Except.ok.inj h
    rw [Prod.mk.injEq] at h2
    rw [← h2.2]
    rfl

theorem valInv_sort {s s' : SQ} {keyArg : Option (PyVal → PyVal)} {rev : Bool}
    {r : Except PyErr Unit}
    (h : sortOp s keyArg rev = some (r, s')) (hs : valInv s) : valInv s' := by
  by_cases hks : s.key.isSome = true
  · rw [sortOp_keyed s keyArg rev hks] at h
    split at h
    · rename_i rows' heq
      have h2 := Option.some.inj h
      rw [Prod.mk.injEq] at h2
      obtain ⟨hperm, _, _⟩ := sortLoop_ok_elems _ _ _ _ _ _ heq
      have h1vals : (s.rows.map fun r => { r with key := PyVal.vNone }).map Row.value =
          s.rows.map Row.value := by
        rw [List.map_map]
        rfl
      rw [← h2.2]
      show ((rows'.map Row.value : List PyVal) : Multiset PyVal) =
        ((s.committed.map Row.value : List PyVal) : Multiset PyVal)
      exact Multiset.coe_eq_coe.mpr
        ((h1vals ▸ hperm).trans (Multiset.coe_eq_coe.mp hs))
    · have h2 := Option.some.inj h
      rw [Prod.mk.injEq] at h2
      rw [← h2.2]
      rfl
    · simp at h
  · rw [sortOp_unkeyed s keyArg rev hks] at h
    split at h
    · rename_i rows' heq
      have h2 := Option.some.inj h
      rw [Prod.mk.injEq] at h2
      obtain ⟨hperm, _, _⟩ := sortLoop_ok_elems _ _ _ _ _ _ heq
      rw [← h2.2]
      show ((rows'.map Row.value : List PyVal) : Multiset PyVal) =
        ((s.committed.map Row.value : List PyVal) : Multiset PyVal)
      exact Multiset.coe_eq_coe.mpr (hperm.trans (Multiset.coe_eq_coe.mp hs))
    · have h2 := Option.some.inj h
      rw [Prod.mk.injEq] at h2
      rw [← h2.2]
      rfl
    · simp at h
